import Mathlib

set_option maxHeartbeats 1000000

/-!
Formal model of cling's ASTNodeEraser
(src/interpreter/cling/lib/Interpreter/ASTNodeEraser.cpp): the transaction
reverter (`ASTNodeEraser::RevertTransaction`), the lookup-table cleanup of
`DeclReverter::VisitNamedDecl`, the redeclaration-chain rebuilder
`DeclReverter::VisitRedeclarable`, the generated-code unlinker
(`DeclReverter::MaybeRemoveDeclFromModule` / `RemoveStaticInit`), the macro
eraser (`DeclReverter::VisitMacro`) and the source-cache invalidator
(`DeclReverter::CollectFilesToUncache` and the `DeclReverter` destructor).

Declarations, macro records and source files are identified by `Nat` handles;
LLVM global values are identified by their linker names (`String`), since the
unlinker's control flow dispatches on name prefixes.  Clang/LLVM side
structures (symbol-table entries, `llvm::Module` globals, the preprocessor
macro table, the source-manager content cache) are modelled as explicit finite
data.  Per-declaration erasure outcomes are oracles (`Nat → Bool`) where the
reverter only consumes the boolean result.
-/

namespace ASTNodeEraser

/-- Lifecycle states of a `Transaction` (cling `Transaction.h` data model: the
spec's Collecting / Committed / RolledBack / RolledBackWithErrors). -/
inductive TransactionState
  | kCollecting
  | kCommitted
  | kRolledBack
  | kRolledBackWithErrors
deriving DecidableEq

/-- Call classification recorded with each declaration group of a transaction
(`Transaction::ConsumerCallInfo`).  `RevertTransaction` only processes
`kCCIHandleTopLevelDecl` entries; every other classification is bundled into
`kCCIOther`. -/
inductive ConsumerCallInfo
  | kCCIHandleTopLevelDecl
  | kCCIOther
deriving DecidableEq

/-- One entry of a transaction's declaration queue (`Transaction::DelayCallInfo`):
the call classification and the declaration group (`DeclGroupRef`), members in
acceptance order. -/
structure DelayCallInfo where
  m_Call : ConsumerCallInfo
  m_DGR : List Nat
deriving DecidableEq

/-- A transaction: declaration-queue entries and macro records in acceptance
order, the lifecycle state, and the first source buffer it introduced.
Modelled from the spec's transaction data model (`Transaction.h` is not under
src/). -/
structure Transaction where
  m_DeclQueue : List DelayCallInfo
  m_MacroDirectiveQueue : List Nat
  m_State : TransactionState
  m_BufferFID : Nat
deriving DecidableEq

/-- The observable steps of one `RevertTransaction` run: individual declaration
and macro erasures, and the final source-cache flush performed by the
`DeclReverter` destructor. -/
inductive REvent
  | revertDecl (d : Nat)
  | revertMacroDirective (md : Nat)
  | flushCaches
deriving DecidableEq

/-- `Transaction::rdecls_begin/rdecls_end`: the declaration queue in reverse
acceptance order (modelled from the spec's transaction data model). -/
def Transaction.rdecls (T : Transaction) : List DelayCallInfo :=
  T.m_DeclQueue.reverse

/-- `Transaction::rmacros_begin/rmacros_end`: the macro records in reverse
acceptance order (modelled from the spec's transaction data model). -/
def Transaction.rmacros (T : Transaction) : List Nat :=
  T.m_MacroDirectiveQueue.reverse

/-- Body of the inner loop of `RevertTransaction` over one declaration group:
`Successful = DeclRev.RevertDecl(*Di) && Successful`, and the erasure step is
recorded in the trace. -/
def eraseStep (rd : Nat → Bool) (a : Bool × List REvent) (d : Nat) : Bool × List REvent :=
  (rd d && a.1, a.2 ++ [REvent.revertDecl d])

/-- Body of the macro loop of `RevertTransaction`:
`Successful = DeclRev.RevertMacro(*MI) && Successful`. -/
def macroStep (rm : Nat → Bool) (a : Bool × List REvent) (md : Nat) : Bool × List REvent :=
  (rm md && a.1, a.2 ++ [REvent.revertMacroDirective md])

/-- Body of the outer loop of `RevertTransaction` over the reversed declaration
queue: entries whose call classification is not `kCCIHandleTopLevelDecl` are
skipped (`continue`); a recorded group is processed from `DGR.end() - 1` down
to `DGR.begin()`, i.e. in reverse. -/
def dciStep (rd : Nat → Bool) (acc : Bool × List REvent) (dci : DelayCallInfo) :
    Bool × List REvent :=
  if dci.m_Call = ConsumerCallInfo.kCCIHandleTopLevelDecl then
    dci.m_DGR.reverse.foldl (eraseStep rd) acc
  else acc

/-- `ASTNodeEraser::RevertTransaction`, release (NDEBUG) semantics.  `rd` / `rm`
are the per-item results of `DeclReverter::RevertDecl` / `RevertMacro`.
Returns the overall verdict, the transaction with its final lifecycle state,
and the trace of steps in execution order; the trailing `flushCaches` event is
the `DeclReverter` destructor running when `DeclRev` goes out of scope. -/
def RevertTransactionRun (rd : Nat → Bool) (rm : Nat → Bool) (T : Transaction) :
    Bool × Transaction × List REvent :=
  let declPhase := (Transaction.rdecls T).foldl (dciStep rd) (true, ([] : List REvent))
  let macroPhase := (Transaction.rmacros T).foldl (macroStep rm) declPhase
  (macroPhase.1,
   { T with m_State :=
      if macroPhase.1 then TransactionState.kRolledBack
      else TransactionState.kRolledBackWithErrors },
   macroPhase.2 ++ [REvent.flushCaches])

/-- The declarations a reverted queue actually erases, in erasure order: members
of groups recorded under `kCCIHandleTopLevelDecl`, each group reversed. -/
def procOf : List DelayCallInfo → List Nat
  | [] => []
  | dci :: rest =>
      if dci.m_Call = ConsumerCallInfo.kCCIHandleTopLevelDecl then
        dci.m_DGR.reverse ++ procOf rest
      else procOf rest

/-- The declarations `RevertTransaction` erases for a transaction, in erasure
order. -/
def processedDecls (T : Transaction) : List Nat :=
  procOf (Transaction.rdecls T)

/-- Debug-build (`!NDEBUG`) inner group loop: `assert(Successful)` after each
erasure, so the run halts (`none`) at the first failure. -/
def dbgGroupLoop (rd : Nat → Bool) : List Nat → Bool → Option Bool
  | [], b => some b
  | d :: ds, b =>
      let b2 := rd d && b
      if b2 then dbgGroupLoop rd ds b2 else none

/-- Debug-build outer loop over the reversed declaration queue. -/
def dbgDeclLoop (rd : Nat → Bool) : List DelayCallInfo → Bool → Option Bool
  | [], b => some b
  | dci :: rest, b =>
      if dci.m_Call = ConsumerCallInfo.kCCIHandleTopLevelDecl then
        match dbgGroupLoop rd dci.m_DGR.reverse b with
        | none => none
        | some b2 => dbgDeclLoop rd rest b2
      else dbgDeclLoop rd rest b

/-- Debug-build macro loop: `assert(Successful)` after each macro erasure. -/
def dbgMacroLoop (rm : Nat → Bool) : List Nat → Bool → Option Bool
  | [], b => some b
  | md :: rest, b =>
      let b2 := rm md && b
      if b2 then dbgMacroLoop rm rest b2 else none

/-- `ASTNodeEraser::RevertTransaction` under debug-build assertions: the
`assert(Successful && "Cannot handle that yet!")` after each erasure halts the
process (`none`) at the first per-item failure. -/
def RevertTransactionDbg (rd : Nat → Bool) (rm : Nat → Bool) (T : Transaction) :
    Option Bool :=
  match dbgDeclLoop rd (Transaction.rdecls T) true with
  | none => none
  | some b => dbgMacroLoop rm (Transaction.rmacros T) b

/-- Clang's `StoredDeclsList`: either a single (possibly null) declaration or a
vector of same-name declarations. -/
inductive StoredDeclsList
  | asDecl (d : Option Nat)
  | asVector (v : List Nat)
deriving DecidableEq

/-- `StoredDeclsList::getAsDecl`: the single entry, null for vectors. -/
def StoredDeclsList.getAsDecl : StoredDeclsList → Option Nat
  | .asDecl d => d
  | .asVector _ => none

/-- `StoredDeclsList::getAsVector`: the vector form, if any. -/
def StoredDeclsList.getAsVector : StoredDeclsList → Option (List Nat)
  | .asDecl _ => none
  | .asVector v => some v

/-- `StoredDeclsList::getLookupResult`: the declarations the entry resolves to. -/
def StoredDeclsList.getLookupResult : StoredDeclsList → List Nat
  | .asDecl none => []
  | .asDecl (some d) => [d]
  | .asVector v => v

/-- `StoredDeclsList::isNull`. -/
def StoredDeclsList.isNull : StoredDeclsList → Bool
  | .asDecl none => true
  | .asDecl (some _) => false
  | .asVector _ => false

/-- Modelled from the spec: clang's `StoredDeclsList::remove` — the
symbol-resolution facility's "remove binding" operation of the external
interface, not under src/ — removes the given declaration's binding from the
entry (for a vector, one occurrence per call). -/
def StoredDeclsList.removeDecl : StoredDeclsList → Nat → StoredDeclsList
  | .asDecl d, nd => if d = some nd then .asDecl none else .asDecl d
  | .asVector v, nd => .asVector (v.erase nd)

/-- A `StoredDeclsMap`: association of declaration names to their stored
entries. -/
def StoredDeclsMap := List (Nat × StoredDeclsList)

/-- `Map->find(Name)`. -/
def findEntry (Map : StoredDeclsMap) (n : Nat) : Option StoredDeclsList :=
  Option.map (fun p => p.2) (List.find? (fun p => decide (p.1 = n)) Map)

/-- `Map->erase(Pos)`: drop the name's entry. -/
def eraseEntry (Map : StoredDeclsMap) (n : Nat) : StoredDeclsMap :=
  List.filter (fun p => decide (p.1 ≠ n)) Map

/-- In-place mutation of the found entry (`Pos->second`). -/
def setEntry (Map : StoredDeclsMap) (n : Nat) (s : StoredDeclsList) : StoredDeclsMap :=
  List.map (fun p => if p.1 = n then (n, s) else p) Map

/-- What the map resolves a name to. -/
def resolve (Map : StoredDeclsMap) (n : Nat) : List Nat :=
  match findEntry Map n with
  | none => []
  | some sdl => StoredDeclsList.getLookupResult sdl

/-- Body of `VisitNamedDecl`'s lookup cleanup once the name's entry was found:
remove `nd` from it (the single slot when it is exactly `nd`, otherwise every
vector element equal to `nd`), then erase the whole entry when it became null
or an empty vector, else store the shrunk entry back in place. -/
def cleanupFoundEntry (Map : StoredDeclsMap) (n nd : Nat) (sdl : StoredDeclsList) :
    StoredDeclsMap :=
  let sdl2 :=
    if StoredDeclsList.getAsDecl sdl = some nd then StoredDeclsList.removeDecl sdl nd
    else
      match StoredDeclsList.getAsVector sdl with
      | some v =>
          v.foldl (fun s x => if x = nd then StoredDeclsList.removeDecl s nd else s) sdl
      | none => sdl
  if StoredDeclsList.isNull sdl2 = true ∨ StoredDeclsList.getAsVector sdl2 = some [] then
    eraseEntry Map n
  else setEntry Map n sdl2

/-- The lookup-table cleanup of `DeclReverter::VisitNamedDecl` (its "Cleanup the
lookup tables" block): find the name's entry and shrink or drop it.  The
scope-chain and `IdResolver` removals act on the distinct lexical view and are
not part of the canonical map modelled here. -/
def VisitNamedDeclCleanup (Map : StoredDeclsMap) (nd : Nat) (n : Nat) : StoredDeclsMap :=
  match findEntry Map n with
  | none => Map
  | some sdl => cleanupFoundEntry Map n nd sdl

/-- The collection loop of `DeclReverter::VisitRedeclarable`: walk the previous-
declaration pointers from the most recent declaration, pushing every node other
than the removed one `r`; the chain is newest-first.  Fuel bounds the walk so
the definition is total; a valid chain is shorter than its fuel. -/
def collectPrevDecls (prev : Nat → Option Nat) (r : Nat) : Option Nat → Nat → List Nat
  | _, 0 => []
  | none, _ + 1 => []
  | some d, fuel + 1 =>
      if d = r then collectPrevDecls prev r (prev d) fuel
      else d :: collectPrevDecls prev r (prev d) fuel

/-- The lookup-retarget loop of `VisitRedeclarable`: scan the lookup result for
the removed node `nd`; replace the first occurrence with the newest survivor
`surv` and stop — but only when `surv` is not already among the (original)
lookup result `full`. -/
def retargetLoop (full : List Nat) (nd surv : Nat) : List Nat → List Nat
  | [] => []
  | a :: rest =>
      if a = nd ∧ ¬ surv ∈ full then surv :: rest
      else a :: retargetLoop full nd surv rest

/-- Spec-level description of the retarget step: the first occurrence of `nd`
replaced by `surv`. -/
def replaceFirst (nd surv : Nat) : List Nat → List Nat
  | [] => []
  | a :: rest => if a = nd then surv :: rest else a :: replaceFirst nd surv rest

/-- The relink loop of `VisitRedeclarable`: with a null sentinel appended, set
each collected node's previous-declaration pointer to the next entry
(`PrevDecls[i-1]->setPreviousDecl(PrevDecls[i])` for `i` descending), so the
newest-first list is rebuilt with the oldest node pointing to none.  Nodes not
in the list keep their pointers. -/
def relinkChain (prev : Nat → Option Nat) : List Nat → Nat → Option Nat
  | [], x => prev x
  | [a], x => if x = a then none else prev x
  | a :: b :: rest, x => if x = a then some b else relinkChain prev (b :: rest) x

/-- A previous-declaration pointer function realises a newest-first chain:
each node points to the next entry and the last node points to none. -/
def followsChain (prev : Nat → Option Nat) : List Nat → Prop
  | [] => True
  | [a] => prev a = none
  | a :: b :: rest => prev a = some b ∧ followsChain prev (b :: rest)

/-- Result of `VisitRedeclarable`: the rebuilt previous-declaration pointers and
the (possibly retargeted) lookup entry for the node's name. -/
structure RedeclResult where
  prev : Nat → Option Nat
  lookupEntry : Option (List Nat)

/-- `DeclReverter::VisitRedeclarable` over a chain state: collect the
redeclarations except the removed node `r`; if survivors exist, retarget the
name's lookup entry (when the declaration is named and the map has a non-null
entry, given here as `entry`) and relink the survivors; with no survivor,
nothing changes. -/
def VisitRedeclarable (prev : Nat → Option Nat) (entry : Option (List Nat))
    (r : Nat) (mostRecent : Nat) (hasName : Bool) (fuel : Nat) : RedeclResult :=
  match collectPrevDecls prev r (some mostRecent) fuel with
  | [] => ⟨prev, entry⟩
  | p :: ps =>
      ⟨relinkChain prev (p :: ps),
       if hasName then Option.map (fun decls => retargetLoop decls r p decls) entry
       else entry⟩

/-- A single use of an `llvm::GlobalValue`: whether the user is an
`llvm::Instruction`, the function containing that instruction, and whether the
user is a dead constant (dropped by `removeDeadConstantUsers`). -/
structure Use where
  isInstruction : Bool
  parentFn : String
  isDeadConst : Bool
deriving DecidableEq

/-- An `llvm::GlobalValue` of the transaction's module: linker name, whether it
is an `llvm::Function`, its linkage, and its incoming uses. -/
structure Global where
  name : String
  isFunc : Bool
  internalLinkage : Bool
  uses : List Use
deriving DecidableEq

/-- The transaction's `llvm::Module`. -/
structure Module where
  globals : List Global
deriving DecidableEq

/-- `Module::getNamedValue`. -/
def Module.find (m : Module) (n : String) : Option Global :=
  List.find? (fun g => decide (g.name = n)) m.globals

/-- `llvm::StringRef::startswith`, modelled on the underlying character lists. -/
def nameStartsWith (s pre : String) : Bool :=
  List.isPrefixOf pre.data s.data

/-- The observable actions of the generated-code unlinker on the executable
image and the execution engine. -/
inductive Event
  | unmap (g : String)
  | dropRefs (g : String)
  | replaceUsesDummy (g : String)
  | replaceUsesUndef (g : String)
  | eraseGV (g : String)
  | assertFail
deriving DecidableEq

/-- Body of `DeclReverter::RemoveStaticInit` once the glue function was found:
check the debug-build asserts (name prefix, internal linkage, exactly one use
that is an instruction — modelled as `assertFail` events when violated), then
erase the `_GLOBAL__I*` caller (the parent function of the glue function's
single instruction use) first and the `__cxx_global_var_init*` glue function
itself second. -/
def removeStaticInitFound (fname : String) (F : Global) : List Event × List String :=
  if nameStartsWith fname "__cxx_global_var_init" && F.internalLinkage then
    match F.uses with
    | [u] =>
        if u.isInstruction then
          ([Event.eraseGV u.parentFn, Event.eraseGV fname], [u.parentFn, fname])
        else ([Event.assertFail], [])
    | _ => ([Event.assertFail], [])
  else ([Event.assertFail], [])

/-- `DeclReverter::RemoveStaticInit`: look up the glue function by name and
fully delete it together with its `_GLOBAL__I*` caller; returns the events and
the names of the functions deleted from the module. -/
def RemoveStaticInit (m : Module) (fname : String) : List Event × List String :=
  match Module.find m fname with
  | none => ([Event.assertFail], [])
  | some F => removeStaticInitFound fname F

/-- The loop condition of `MaybeRemoveDeclFromModule` over the remaining uses:
the user is an instruction inside a compiler-synthesized
`__cxx_global_var_init*` static-initialization glue function. -/
def glueUse (u : Use) : Bool :=
  u.isInstruction && nameStartsWith u.parentFn "__cxx_global_var_init"

/-- Body of the use loop of `MaybeRemoveDeclFromModule`: for each glue use, run
`RemoveStaticInit` on the glue function, accumulating its events and the
deleted function names. -/
def glueStep (m : Module) (acc : List Event × List String) (u : Use) :
    List Event × List String :=
  if glueUse u then
    (acc.1 ++ (RemoveStaticInit m u.parentFn).1, acc.2 ++ (RemoveStaticInit m u.parentFn).2)
  else acc

/-- The use loop of `MaybeRemoveDeclFromModule` over the collected uses. -/
def collectGlueRemovals (m : Module) (uses1 : List Use) : List Event × List String :=
  uses1.foldl (glueStep m) (([] : List Event), ([] : List String))

/-- `DeclReverter::MaybeRemoveDeclFromModule`: no-op without a module
(syntax-only) or when the transaction is not committed; otherwise look up the
artifact by linker name (absent means already removed), drop dead constant
users, delete static-init glue users via `RemoveStaticInit`, remove the
execution engine's address mapping (`updateGlobalMapping(GV, 0)`), drop the
artifact's outgoing references, replace any still-standing incoming reference
with a dummy function (for functions) or an undef value (for data), and finally
erase the artifact from the module.  A use disappears when the function holding
it was deleted by the glue removal. -/
def MaybeRemoveDeclFromModule (module : Option Module) (state : TransactionState)
    (mangledName : String) : List Event :=
  match module with
  | none => []
  | some m =>
      if state = TransactionState.kCommitted then
        match Module.find m mangledName with
        | none => []
        | some GV =>
            let uses1 := GV.uses.filter (fun u => !u.isDeadConst)
            let glue := collectGlueRemovals m uses1
            let remaining := uses1.filter (fun u => !glue.2.contains u.parentFn)
            glue.1
              ++ [Event.unmap mangledName, Event.dropRefs mangledName]
              ++ (if remaining.isEmpty then []
                  else [if GV.isFunc then Event.replaceUsesDummy mangledName
                        else Event.replaceUsesUndef mangledName])
              ++ [Event.eraseGV mangledName]
      else []

/-- The ordering property claimed for artifact removal: whenever position `i` of
the trace deletes `g` from the image, an address-mapping removal for `g`
already occurred strictly earlier. -/
def unmapPrecedesDelete (tr : List Event) (g : String) : Prop :=
  ∀ i, i < tr.length → tr.getD i Event.assertFail = Event.eraseGV g →
    Event.unmap g ∈ tr.take i

/-- The claim that a still-standing non-synthetic use of a looked-up artifact is
treated as an invariant violation (a failing assertion) by the unlinker. -/
def AssertsOnGenuineUse : Prop :=
  ∀ (m : Module) (mangledName : String) (GV : Global),
    Module.find m mangledName = some GV →
    (∃ u, u ∈ GV.uses.filter (fun x => !x.isDeadConst) ∧ glueUse u = false) →
    Event.assertFail ∈ MaybeRemoveDeclFromModule (some m) TransactionState.kCommitted mangledName

/-- `DeclReverter::CollectFilesToUncache`: record the file of a reverted
declaration or macro if its FileID is valid (`some`), at or after the
transaction's first-introduced buffer, and not already recorded.  The
accumulated files form a set (kept as a duplicate-free list). -/
def CollectFilesToUncache (bufferFID : Nat) (fid : Option Nat) (files : List Nat) :
    List Nat :=
  match fid with
  | none => files
  | some f => if bufferFID ≤ f ∧ ¬ f ∈ files then files ++ [f] else files

/-- Cached per-file state of clang's SourceManager: whether the content cache
has a `ContentsEntry` (a real file on disk), the cached buffer, and the
recorded file size. -/
structure CacheInfo where
  contentsEntry : Bool
  buffer : Option Nat
  size : Nat
deriving DecidableEq

/-- One iteration of the `DeclReverter` destructor's loop: if the accumulated
file's content cache has a `ContentsEntry`, free the cached buffer
(`replaceBuffer(0)`) and reset the recorded size
(`FileManager::modifyFileEntry(entry, 0, 0)`). -/
def flushOne (c : Nat → CacheInfo) (f : Nat) : Nat → CacheInfo :=
  if (c f).contentsEntry then
    fun x => if x = f then { contentsEntry := (c f).contentsEntry, buffer := none, size := 0 }
             else c x
  else c

/-- The `DeclReverter` destructor's flush: reset every accumulated file's cached
content and recorded size. -/
def flushFilesToUncache (c : Nat → CacheInfo) (files : List Nat) : Nat → CacheInfo :=
  files.foldl flushOne c

/-- A macro record of the transaction (`Transaction::MacroDirectiveInfo`): the
identifier and the FileID of the directive's location (`none` when the spelling
location's file is invalid). -/
structure MacroDirectiveInfo where
  m_II : Nat
  m_FID : Option Nat
deriving DecidableEq

/-- The preprocessor state seen by the macro eraser: the active macro table
(identifier to current definition) plus the reverter's accumulated
files-to-uncache. -/
structure PPState where
  macros : Nat → Option Nat
  filesToUncache : List Nat

/-- `DeclReverter::VisitMacro`: first feed the directive's location to
`CollectFilesToUncache`; then, if the macro's current definition is already
empty/undefined, return failure without touching the macro table; otherwise
remove the (identifier, definition) pair and return success.
Modelled from the spec where clang is involved: `MacroDirective::getMacroInfo`
and the cling-side `Preprocessor::removeMacro` are not under src/; per the
spec the eraser is a no-op returning failure when "the macro's current
definition is already empty/undefined", so `getMacroInfo` is read as the
identifier's current definition in the macro table and `removeMacro` as
deleting that pair. -/
def VisitMacroDirective (bufferFID : Nat) (st : PPState) (MacroD : MacroDirectiveInfo) :
    Bool × PPState :=
  let files2 := CollectFilesToUncache bufferFID MacroD.m_FID st.filesToUncache
  match st.macros MacroD.m_II with
  | none => (false, { macros := st.macros, filesToUncache := files2 })
  | some _ =>
      (true,
       { macros := fun x => if x = MacroD.m_II then none else st.macros x,
         filesToUncache := files2 })

/-- Example module for the unlinker theorems: a data artifact `v` used once from
a static-init glue function, which is itself called once from `_GLOBAL__I_a`. -/
def exGlueGlobal : Global :=
  { name := "__cxx_global_var_init1", isFunc := true, internalLinkage := true,
    uses := [{ isInstruction := true, parentFn := "_GLOBAL__I_a", isDeadConst := false }] }

/-- The data artifact used by the glue function of `exGlueGlobal`. -/
def exVarGlobal : Global :=
  { name := "v", isFunc := false, internalLinkage := false,
    uses := [{ isInstruction := true, parentFn := "__cxx_global_var_init1",
               isDeadConst := false }] }

/-- Module holding `exVarGlobal` and `exGlueGlobal`. -/
def exModule : Module := { globals := [exVarGlobal, exGlueGlobal] }

/-- Example module for the genuine-use theorems: a function artifact `w` with a
single genuine (non-synthetic) instruction use from `main`. -/
def exGenuineGlobal : Global :=
  { name := "w", isFunc := true, internalLinkage := false,
    uses := [{ isInstruction := true, parentFn := "main", isDeadConst := false }] }

/-- Module holding only `exGenuineGlobal`. -/
def exModule2 : Module := { globals := [exGenuineGlobal] }

/-- Example previous-declaration pointers realising the chain `[3, 2, 1]`
(newest first). -/
def prevEx : Nat → Option Nat :=
  fun x => if x = 3 then some 2 else if x = 2 then some 1 else none

/-- Example preprocessor state: identifier 0 is defined (as definition 42), no
files accumulated. -/
def ppEx : PPState :=
  { macros := fun i => if i = 0 then some 42 else none, filesToUncache := [] }

/-- Example preprocessor state with no macro defined. -/
def ppUndefEx : PPState :=
  { macros := fun _ => none, filesToUncache := [] }

/-- Example macro record: identifier 0, located in file 5. -/
def macroDEx : MacroDirectiveInfo := { m_II := 0, m_FID := some 5 }

theorem eraseStep_fold (rd : Nat → Bool) :
    ∀ (l : List Nat) (b : Bool) (evs : List REvent),
      l.foldl (eraseStep rd) (b, evs) = (b && l.all rd, evs ++ l.map REvent.revertDecl) := by
  intro l
  induction l with
  | nil => intro b evs; simp
  | cons x xs ih =>
      intro b evs
      simp only [List.foldl_cons, eraseStep, List.all_cons, List.map_cons, ih,
        List.append_assoc, List.singleton_append]
      rw [Bool.and_comm (rd x) b, Bool.and_assoc]

theorem macroStep_fold (rm : Nat → Bool) :
    ∀ (l : List Nat) (b : Bool) (evs : List REvent),
      l.foldl (macroStep rm) (b, evs)
        = (b && l.all rm, evs ++ l.map REvent.revertMacroDirective) := by
  intro l
  induction l with
  | nil => intro b evs; simp
  | cons x xs ih =>
      intro b evs
      simp only [List.foldl_cons, macroStep, List.all_cons, List.map_cons, ih,
        List.append_assoc, List.singleton_append]
      rw [Bool.and_comm (rm x) b, Bool.and_assoc]

theorem dciStep_fold (rd : Nat → Bool) :
    ∀ (q : List DelayCallInfo) (b : Bool) (evs : List REvent),
      q.foldl (dciStep rd) (b, evs)
        = (b && (procOf q).all rd, evs ++ (procOf q).map REvent.revertDecl) := by
  intro q
  induction q with
  | nil => intro b evs; simp [procOf]
  | cons dci rest ih =>
      intro b evs
      by_cases h : dci.m_Call = ConsumerCallInfo.kCCIHandleTopLevelDecl
      · simp only [List.foldl_cons, dciStep, if_pos h, procOf, eraseStep_fold, ih,
          List.all_append, List.map_append, List.append_assoc, Bool.and_assoc]
      · simp only [List.foldl_cons, dciStep, if_neg h, procOf, ih]

theorem revertRun_fst (rd rm : Nat → Bool) (T : Transaction) :
    (RevertTransactionRun rd rm T).1
      = ((processedDecls T).all rd && (Transaction.rmacros T).all rm) := by
  simp [RevertTransactionRun, dciStep_fold, macroStep_fold, processedDecls]

theorem revertRun_trace (rd rm : Nat → Bool) (T : Transaction) :
    (RevertTransactionRun rd rm T).2.2
      = (processedDecls T).map REvent.revertDecl
        ++ (Transaction.rmacros T).map REvent.revertMacroDirective
        ++ [REvent.flushCaches] := by
  simp [RevertTransactionRun, dciStep_fold, macroStep_fold, processedDecls]

theorem revertRun_state (rd rm : Nat → Bool) (T : Transaction) :
    (RevertTransactionRun rd rm T).2.1.m_State
      = (if (RevertTransactionRun rd rm T).1 = true then TransactionState.kRolledBack
         else TransactionState.kRolledBackWithErrors) := by
  rfl

/-- C2: `RevertTransaction` returns true exactly when every erased top-level
declaration's and every macro's erasure succeeded, and it leaves the
transaction's lifecycle state at `kRolledBack` on full success and
`kRolledBackWithErrors` otherwise — never at `kCollecting` or `kCommitted`. -/
theorem revertTransaction_verdict_and_state (rd rm : Nat → Bool) (T : Transaction) :
    ((RevertTransactionRun rd rm T).1 = true ↔
        ((∀ d ∈ processedDecls T, rd d = true)
          ∧ ∀ md ∈ T.m_MacroDirectiveQueue, rm md = true))
    ∧ (RevertTransactionRun rd rm T).2.1.m_State
        = (if (RevertTransactionRun rd rm T).1 = true then TransactionState.kRolledBack
           else TransactionState.kRolledBackWithErrors)
    ∧ (RevertTransactionRun rd rm T).2.1.m_State ≠ TransactionState.kCollecting
    ∧ (RevertTransactionRun rd rm T).2.1.m_State ≠ TransactionState.kCommitted := by
  refine ⟨?_, revertRun_state rd rm T, ?_, ?_⟩
  · rw [revertRun_fst]
    simp [List.all_eq_true, Transaction.rmacros]
  · rw [revertRun_state]
    by_cases h : (RevertTransactionRun rd rm T).1 = true <;> simp [h]
  · rw [revertRun_state]
    by_cases h : (RevertTransactionRun rd rm T).1 = true <;> simp [h]

theorem procOf_eq_bind :
    ∀ q : List DelayCallInfo,
      procOf q
        = (q.filter
            (fun dci => decide (dci.m_Call = ConsumerCallInfo.kCCIHandleTopLevelDecl))).flatMap
            (fun dci => dci.m_DGR.reverse) := by
  intro q
  induction q with
  | nil => simp [procOf]
  | cons dci rest ih =>
      by_cases h : dci.m_Call = ConsumerCallInfo.kCCIHandleTopLevelDecl
      · simp [procOf, h, ih]
      · simp [procOf, h, ih]

/-- C3: the reverter erases exactly the declarations recorded under the
`kCCIHandleTopLevelDecl` call classification — other entries are skipped — with
the recorded groups taken in reverse acceptance order and each group erased
last-declared-first, and afterwards it erases all macros, in reverse order,
after all declarations. -/
theorem revertTransaction_order (rd rm : Nat → Bool) (T : Transaction) :
    (RevertTransactionRun rd rm T).2.2
      = (((T.m_DeclQueue.reverse.filter
            (fun dci => decide (dci.m_Call = ConsumerCallInfo.kCCIHandleTopLevelDecl))).flatMap
            (fun dci => dci.m_DGR.reverse)).map REvent.revertDecl)
        ++ (T.m_MacroDirectiveQueue.reverse.map REvent.revertMacroDirective)
        ++ [REvent.flushCaches]
    ∧ (∀ d, REvent.revertDecl d ∈ (RevertTransactionRun rd rm T).2.2 →
        ∃ dci, dci ∈ T.m_DeclQueue
          ∧ dci.m_Call = ConsumerCallInfo.kCCIHandleTopLevelDecl ∧ d ∈ dci.m_DGR) := by
  have htr := revertRun_trace rd rm T
  have hpd : processedDecls T
      = ((T.m_DeclQueue.reverse.filter
            (fun dci => decide (dci.m_Call = ConsumerCallInfo.kCCIHandleTopLevelDecl))).flatMap
            (fun dci => dci.m_DGR.reverse)) := by
    rw [processedDecls, procOf_eq_bind, Transaction.rdecls]
  constructor
  · rw [htr, hpd, Transaction.rmacros]
  · intro d hd
    rw [htr] at hd
    simp only [List.mem_append, List.mem_map, List.mem_singleton] at hd
    rcases hd with ((⟨x, hx, hxe⟩ | ⟨x, hx, hxe⟩) | hf)
    · have hdx : x = d := by
        injection hxe with h1
      subst hdx
      rw [hpd] at hx
      simp only [List.mem_flatMap, List.mem_filter, List.mem_reverse,
        decide_eq_true_eq] at hx
      rcases hx with ⟨dci, ⟨hmem, hcall⟩, hdg⟩
      exact ⟨dci, hmem, hcall, by simpa using hdg⟩
    · cases hxe
    · cases hf

theorem dbgGroupLoop_true (rd : Nat → Bool) :
    ∀ l : List Nat, dbgGroupLoop rd l true = if l.all rd then some true else none := by
  intro l
  induction l with
  | nil => simp [dbgGroupLoop]
  | cons d ds ih =>
      cases h : rd d
      · simp [dbgGroupLoop, h]
      · simp [dbgGroupLoop, h, ih]

theorem dbgDeclLoop_true (rd : Nat → Bool) :
    ∀ q : List DelayCallInfo,
      dbgDeclLoop rd q true = if (procOf q).all rd then some true else none := by
  intro q
  induction q with
  | nil => simp [dbgDeclLoop, procOf]
  | cons dci rest ih =>
      by_cases h : dci.m_Call = ConsumerCallInfo.kCCIHandleTopLevelDecl
      · rw [dbgDeclLoop, if_pos h, dbgGroupLoop_true]
        by_cases hall : dci.m_DGR.reverse.all rd
        · simp [hall, ih, procOf, h, List.all_append]
        · simp [hall, procOf, h, List.all_append]
      · rw [dbgDeclLoop, if_neg h, ih]
        simp [procOf, h]

theorem dbgMacroLoop_true (rm : Nat → Bool) :
    ∀ l : List Nat, dbgMacroLoop rm l true = if l.all rm then some true else none := by
  intro l
  induction l with
  | nil => simp [dbgMacroLoop]
  | cons d ds ih =>
      cases h : rm d
      · simp [dbgMacroLoop, h]
      · simp [dbgMacroLoop, h, ih]

theorem revertDbg_eq (rd rm : Nat → Bool) (T : Transaction) :
    RevertTransactionDbg rd rm T
      = (if (processedDecls T).all rd && (Transaction.rmacros T).all rm
         then some true else none) := by
  rw [RevertTransactionDbg, dbgDeclLoop_true]
  by_cases h : (procOf (Transaction.rdecls T)).all rd
  · rw [if_pos h]
    show dbgMacroLoop rm (Transaction.rmacros T) true = _
    rw [dbgMacroLoop_true]
    by_cases h2 : (Transaction.rmacros T).all rm
    · simp [h, h2, processedDecls]
    · simp [h, h2, processedDecls]
  · rw [if_neg h]
    have : (processedDecls T).all rd = false := by
      rw [processedDecls]
      exact Bool.not_eq_true _ ▸ Bool.of_not_eq_true h
    simp [this]

/-- C5: in release builds a failed per-item erasure does not abort the loop —
the trace of processed items is the same no matter which erasures fail, and the
verdict is the conjunction of all per-item results — while under debug-build
assertions the same failure halts the reversion (the run yields `none`) exactly
when some processed declaration or macro erasure fails. -/
theorem revertTransaction_failure_policy (rd rd2 rm rm2 : Nat → Bool) (T : Transaction) :
    (RevertTransactionRun rd rm T).2.2 = (RevertTransactionRun rd2 rm2 T).2.2
    ∧ (RevertTransactionRun rd rm T).1
        = ((processedDecls T).all rd && (Transaction.rmacros T).all rm)
    ∧ (RevertTransactionDbg rd rm T = none ↔
        ¬ ((∀ d ∈ processedDecls T, rd d = true)
            ∧ ∀ md ∈ Transaction.rmacros T, rm md = true)) := by
  refine ⟨?_, revertRun_fst rd rm T, ?_⟩
  · rw [revertRun_trace, revertRun_trace]
  · rw [revertDbg_eq]
    by_cases h : (processedDecls T).all rd && (Transaction.rmacros T).all rm
    · rw [if_pos h]
      simp only [Bool.and_eq_true, List.all_eq_true] at h
      exact iff_of_false (by simp) (not_not_intro h)
    · rw [if_neg h]
      refine iff_of_true rfl ?_
      simp only [Bool.and_eq_true, List.all_eq_true] at h
      exact h

theorem foldRemove_asVector (nd : Nat) :
    ∀ (v l : List Nat),
      v.foldl (fun s x => if x = nd then StoredDeclsList.removeDecl s nd else s)
          (StoredDeclsList.asVector l)
        = StoredDeclsList.asVector
            (v.foldl (fun l2 x => if x = nd then l2.erase nd else l2) l) := by
  intro v
  induction v with
  | nil => intro l; rfl
  | cons x xs ih =>
      intro l
      by_cases h : x = nd
      · simp only [List.foldl_cons, if_pos h]
        rw [show StoredDeclsList.removeDecl (StoredDeclsList.asVector l) nd
              = StoredDeclsList.asVector (l.erase nd) from rfl]
        exact ih (l.erase nd)
      · simp only [List.foldl_cons, if_neg h]
        exact ih l

theorem filter_erase_ne (a : Nat) :
    ∀ l : List Nat,
      (l.erase a).filter (fun x => decide (¬ x = a))
        = l.filter (fun x => decide (¬ x = a)) := by
  intro l
  induction l with
  | nil => rfl
  | cons b t ih =>
      by_cases hb : b = a
      · subst hb
        rw [List.erase_cons_head]
        simp
      · rw [List.erase_cons_tail (by simpa using hb)]
        simp only [List.filter_cons]
        rw [ih]

theorem foldErase_eq_filter (nd : Nat) :
    ∀ (v l : List Nat), l.count nd ≤ v.count nd →
      v.foldl (fun l2 x => if x = nd then l2.erase nd else l2) l
        = l.filter (fun x => decide (¬ x = nd)) := by
  intro v
  induction v with
  | nil =>
      intro l h
      have h0 : l.count nd = 0 := by simpa using h
      have hnm : nd ∉ l := by
        intro hmem
        rw [List.count_eq_zero] at h0
        exact h0 hmem
      rw [List.foldl_nil, List.filter_eq_self.mpr]
      intro a ha
      simp only [decide_eq_true_eq]
      intro hc
      exact hnm (hc ▸ ha)
  | cons x xs ih =>
      intro l h
      by_cases hx : x = nd
      · subst hx
        rw [List.foldl_cons, if_pos (rfl : x = x)]
        rw [ih (l.erase x)
            (by
              have hc : (l.erase x).count x = l.count x - 1 := List.count_erase_self x l
              have hcx : (x :: xs).count x = xs.count x + 1 := by
                simp [List.count_cons]
              rw [hcx] at h
              omega)]
        exact filter_erase_ne x l
      · simp only [List.foldl_cons, if_neg hx]
        apply ih
        have : (x :: xs).count nd = xs.count nd := by
          simp [List.count_cons, hx]
        omega

theorem findEntry_eraseEntry (Map : StoredDeclsMap) (n : Nat) :
    findEntry (eraseEntry Map n) n = none := by
  induction Map with
  | nil => rfl
  | cons p rest ih =>
      by_cases h : p.1 = n
      · simp [eraseEntry, findEntry, h] at ih ⊢
      · simp only [eraseEntry] at ih ⊢
        simp only [List.filter_cons]
        rw [if_pos (by simpa using h)]
        have hd : (decide (p.1 = n)) = false := by simpa using h
        simp only [findEntry, List.find?, hd] at ih ⊢
        exact ih

theorem findEntry_setEntry (Map : StoredDeclsMap) (n : Nat) (s : StoredDeclsList)
    (h : findEntry Map n ≠ none) : findEntry (setEntry Map n s) n = some s := by
  induction Map with
  | nil => simp [findEntry] at h
  | cons p rest ih =>
      by_cases hp : p.1 = n
      · simp [setEntry, findEntry, List.find?, hp]
      · have h2 : findEntry rest n ≠ none := by
          simpa [findEntry, List.find?, hp] using h
        simpa [setEntry, findEntry, List.find?, hp] using ih h2

theorem cleanupFound_asDecl_none (Map : StoredDeclsMap) (n nd : Nat) :
    cleanupFoundEntry Map n nd (StoredDeclsList.asDecl none) = eraseEntry Map n := by
  rw [cleanupFoundEntry]
  simp [StoredDeclsList.getAsDecl, StoredDeclsList.getAsVector, StoredDeclsList.isNull]

theorem cleanupFound_asDecl_hit (Map : StoredDeclsMap) (n nd : Nat) :
    cleanupFoundEntry Map n nd (StoredDeclsList.asDecl (some nd)) = eraseEntry Map n := by
  rw [cleanupFoundEntry]
  simp [StoredDeclsList.getAsDecl, StoredDeclsList.removeDecl, StoredDeclsList.isNull]

theorem cleanupFound_asDecl_miss (Map : StoredDeclsMap) (n nd e : Nat) (he : e ≠ nd) :
    cleanupFoundEntry Map n nd (StoredDeclsList.asDecl (some e))
      = setEntry Map n (StoredDeclsList.asDecl (some e)) := by
  rw [cleanupFoundEntry]
  simp [StoredDeclsList.getAsDecl, StoredDeclsList.getAsVector, StoredDeclsList.isNull, he]

theorem cleanupFound_asVector (Map : StoredDeclsMap) (n nd : Nat) (v : List Nat) :
    cleanupFoundEntry Map n nd (StoredDeclsList.asVector v)
      = (if v.filter (fun x => decide (¬ x = nd)) = [] then eraseEntry Map n
         else setEntry Map n
           (StoredDeclsList.asVector (v.filter (fun x => decide (¬ x = nd))))) := by
  rw [cleanupFoundEntry]
  have h1 : StoredDeclsList.getAsDecl (StoredDeclsList.asVector v) ≠ some nd := by
    simp [StoredDeclsList.getAsDecl]
  rw [if_neg h1]
  have h2 : StoredDeclsList.getAsVector (StoredDeclsList.asVector v) = some v := rfl
  simp only [h2]
  rw [foldRemove_asVector, foldErase_eq_filter nd v v (le_refl _)]
  by_cases h3 : v.filter (fun x => decide (¬ x = nd)) = []
  · rw [if_pos h3, if_pos]
    exact Or.inr (by rw [h3]; rfl)
  · rw [if_neg h3, if_neg]
    intro hc
    rcases hc with hc | hc
    · exact absurd hc (by simp [StoredDeclsList.isNull])
    · exact h3 (by simpa [StoredDeclsList.getAsVector] using hc)

theorem cleanup_resolve (Map : StoredDeclsMap) (n nd : Nat) :
    resolve (VisitNamedDeclCleanup Map nd n) n
      = (resolve Map n).filter (fun x => decide (¬ x = nd)) := by
  cases hfind : findEntry Map n with
  | none =>
      have hres : resolve Map n = [] := by rw [resolve, hfind]
      rw [VisitNamedDeclCleanup]
      rw [hfind, hres]
      rfl
  | some sdl =>
      have hres : resolve Map n = StoredDeclsList.getLookupResult sdl := by
        rw [resolve, hfind]
      have hcl : VisitNamedDeclCleanup Map nd n = cleanupFoundEntry Map n nd sdl := by
        rw [VisitNamedDeclCleanup, hfind]
      have hsome : findEntry Map n ≠ none := by simp [hfind]
      rw [hcl, hres]
      cases sdl with
      | asDecl d =>
          cases d with
          | none =>
              rw [cleanupFound_asDecl_none]
              simp [resolve, findEntry_eraseEntry, StoredDeclsList.getLookupResult]
          | some e =>
              by_cases he : e = nd
              · subst he
                rw [cleanupFound_asDecl_hit]
                simp [resolve, findEntry_eraseEntry, StoredDeclsList.getLookupResult]
              · rw [cleanupFound_asDecl_miss Map n nd e he]
                rw [resolve, findEntry_setEntry Map n _ hsome]
                simp [StoredDeclsList.getLookupResult, he]
      | asVector v =>
          rw [cleanupFound_asVector]
          by_cases h3 : v.filter (fun x => decide (¬ x = nd)) = []
          · rw [if_pos h3]
            rw [resolve, findEntry_eraseEntry]
            rw [show StoredDeclsList.getLookupResult (StoredDeclsList.asVector v) = v
                  from rfl, h3]
          · rw [if_neg h3]
            rw [resolve, findEntry_setEntry Map n _ hsome]
            rfl

/-- C1: after `VisitNamedDecl`'s lookup cleanup, the erased declaration's name
resolves to nothing or only to surviving declarations — never to the erased
node itself — and, when every other same-name declaration was strictly older,
only to strictly older declarations.  This is the assert-checked post-condition
of the source's `#ifndef NDEBUG` block. -/
theorem visitNamedDecl_resolves_only_survivors (Map : StoredDeclsMap) (n nd : Nat)
    (age : Nat → Nat)
    (hold : ∀ d ∈ resolve Map n, d ≠ nd → age d < age nd) :
    nd ∉ resolve (VisitNamedDeclCleanup Map nd n) n
    ∧ (∀ d ∈ resolve (VisitNamedDeclCleanup Map nd n) n, d ∈ resolve Map n)
    ∧ (∀ d ∈ resolve (VisitNamedDeclCleanup Map nd n) n, age d < age nd) := by
  rw [cleanup_resolve]
  refine ⟨?_, ?_, ?_⟩
  · intro hmem
    rcases List.mem_filter.mp hmem with ⟨_, hdec⟩
    simp at hdec
  · intro d hd
    exact (List.mem_filter.mp hd).1
  · intro d hd
    rcases List.mem_filter.mp hd with ⟨hmem, hdec⟩
    exact hold d hmem (by simpa using hdec)

/-- Witness for C1: a name bound to the vector `[5, 7]`; erasing declaration 7
leaves the name resolving to `[5]` only, with 5 strictly older. -/
theorem visitNamedDecl_resolves_only_survivors_witness :
    7 ∉ resolve (VisitNamedDeclCleanup [(1, StoredDeclsList.asVector [5, 7])] 7 1) 1
    ∧ (∀ d ∈ resolve (VisitNamedDeclCleanup [(1, StoredDeclsList.asVector [5, 7])] 7 1) 1,
        d ∈ resolve [(1, StoredDeclsList.asVector [5, 7])] 1)
    ∧ (∀ d ∈ resolve (VisitNamedDeclCleanup [(1, StoredDeclsList.asVector [5, 7])] 7 1) 1,
        id d < id 7) :=
  visitNamedDecl_resolves_only_survivors [(1, StoredDeclsList.asVector [5, 7])] 1 7 id
    (by decide)

theorem followsChain_cons (prev : Nat → Option Nat) (a : Nat) (l : List Nat) :
    followsChain prev (a :: l) ↔ (prev a = l.head? ∧ followsChain prev l) := by
  cases l with
  | nil => simp [followsChain]
  | cons b rest => simp [followsChain]

theorem collect_eq_filter (prev : Nat → Option Nat) (r : Nat) :
    ∀ (chain : List Nat) (fuel : Nat), followsChain prev chain → chain.length ≤ fuel →
      collectPrevDecls prev r chain.head? fuel
        = chain.filter (fun x => decide (¬ x = r)) := by
  intro chain
  induction chain with
  | nil =>
      intro fuel _ _
      cases fuel with
      | zero => rfl
      | succ k => rfl
  | cons a rest ih =>
      intro fuel hfollow hlen
      rcases (followsChain_cons prev a rest).mp hfollow with ⟨hprev, hrest⟩
      cases fuel with
      | zero => simp at hlen
      | succ k =>
          have hk : rest.length ≤ k := by
            simpa using hlen
          have hrec := ih k hrest hk
          by_cases ha : a = r
          · rw [show (a :: rest).head? = some a from rfl]
            rw [collectPrevDecls, if_pos ha, hprev, hrec]
            simp [ha]
          · rw [show (a :: rest).head? = some a from rfl]
            rw [collectPrevDecls, if_neg ha, hprev, hrec]
            simp [ha]

theorem length_filter_ne_of_nodup :
    ∀ (l : List Nat) (r : Nat), l.Nodup → r ∈ l →
      (l.filter (fun x => decide (¬ x = r))).length + 1 = l.length := by
  intro l
  induction l with
  | nil => intro r _ hr; cases hr
  | cons a as ih =>
      intro r hnd hr
      rcases List.nodup_cons.mp hnd with ⟨hna, hnas⟩
      by_cases ha : a = r
      · subst ha
        have hfa : as.filter (fun x => decide (¬ x = a)) = as :=
          List.filter_eq_self.mpr (by
            intro x hx
            simp only [decide_eq_true_eq]
            intro hc
            exact hna (hc ▸ hx))
        simp only [List.filter_cons]
        rw [if_neg (by simp)]
        rw [hfa, List.length_cons]
      · have hras : r ∈ as := by
          rcases List.mem_cons.mp hr with h1 | h1
          · exact absurd h1.symm ha
          · exact h1
        simp only [List.filter_cons]
        rw [if_pos (by simpa using ha)]
        simp only [List.length_cons]
        rw [← ih r hnas hras]

theorem relinkChain_not_mem (prev : Nat → Option Nat) :
    ∀ (l : List Nat) (x : Nat), x ∉ l → relinkChain prev l x = prev x := by
  intro l
  induction l with
  | nil => intro x _; rfl
  | cons a tl ih =>
      intro x hx
      have hx2 : ¬ x = a ∧ x ∉ tl := by
        simpa [List.mem_cons, not_or] using hx
      cases tl with
      | nil => rw [relinkChain, if_neg hx2.1]
      | cons b rest =>
          rw [relinkChain, if_neg hx2.1]
          exact ih x hx2.2

theorem followsChain_congr (f g : Nat → Option Nat) :
    ∀ l : List Nat, (∀ x ∈ l, f x = g x) → (followsChain f l ↔ followsChain g l) := by
  intro l
  induction l with
  | nil => intro _; simp [followsChain]
  | cons a tl ih =>
      intro hfg
      cases tl with
      | nil =>
          simp only [followsChain]
          rw [hfg a (by simp)]
      | cons b rest =>
          simp only [followsChain]
          rw [hfg a (by simp)]
          have := ih (by
            intro x hx
            exact hfg x (List.mem_cons_of_mem a hx))
          rw [this]

theorem relinkChain_follows (prev : Nat → Option Nat) :
    ∀ l : List Nat, l.Nodup → followsChain (relinkChain prev l) l := by
  intro l
  induction l with
  | nil => intro _; trivial
  | cons a tl ih =>
      intro hnd
      rcases List.nodup_cons.mp hnd with ⟨hna, hntl⟩
      cases tl with
      | nil =>
          show relinkChain prev [a] a = none
          rw [relinkChain, if_pos rfl]
      | cons b rest =>
          constructor
          · show relinkChain prev (a :: b :: rest) a = some b
            rw [relinkChain, if_pos rfl]
          · have hcong : ∀ x ∈ (b :: rest),
                relinkChain prev (a :: b :: rest) x = relinkChain prev (b :: rest) x := by
              intro x hx
              have hxa : ¬ x = a := by
                intro hc
                exact hna (hc ▸ hx)
              rw [relinkChain, if_neg hxa]
            exact (followsChain_congr _ _ (b :: rest) hcong).mpr (ih hntl)

theorem retargetLoop_of_mem (full : List Nat) (nd surv : Nat) (h : surv ∈ full) :
    ∀ l : List Nat, retargetLoop full nd surv l = l := by
  intro l
  induction l with
  | nil => rfl
  | cons a rest ih =>
      rw [retargetLoop, if_neg (by
        intro hc
        exact hc.2 h)]
      rw [ih]

theorem retargetLoop_of_not_mem (full : List Nat) (nd surv : Nat) (h : surv ∉ full) :
    ∀ l : List Nat, retargetLoop full nd surv l = replaceFirst nd surv l := by
  intro l
  induction l with
  | nil => rfl
  | cons a rest ih =>
      by_cases ha : a = nd
      · rw [retargetLoop, if_pos ⟨ha, h⟩, replaceFirst, if_pos ha]
      · rw [retargetLoop, if_neg (by
          intro hc
          exact ha hc.1)]
        rw [replaceFirst, if_neg ha, ih]

/-- C4: unlinking a redeclarable node `r` from a valid duplicate-free chain
(newest-first) collects exactly the survivors, newest-first; exactly one link is
removed (`K` becomes `K - 1`); the survivors are re-linked so each one's
previous-declaration pointer targets the next-older survivor, the oldest
pointing to none; and the name's lookup binding is retargeted to the newest
survivor by replacing the first occurrence of `r`, but only when that survivor
is not already present in the lookup result; with no survivor nothing is
changed. -/
theorem visitRedeclarable_spec (prev : Nat → Option Nat) (entry : List Nat)
    (chain : List Nat) (r : Nat) (fuel : Nat)
    (hfollow : followsChain prev chain) (hnodup : chain.Nodup) (hr : r ∈ chain)
    (hfuel : chain.length ≤ fuel) :
    ∀ s, s = chain.filter (fun x => decide (¬ x = r)) →
      collectPrevDecls prev r chain.head? fuel = s
      ∧ s.length + 1 = chain.length
      ∧ followsChain
          (VisitRedeclarable prev (some entry) r (chain.headD 0) true fuel).prev s
      ∧ (∀ p ps, s = p :: ps →
          ((p ∈ entry →
            (VisitRedeclarable prev (some entry) r (chain.headD 0) true fuel).lookupEntry
              = some entry)
          ∧ (p ∉ entry →
            (VisitRedeclarable prev (some entry) r (chain.headD 0) true fuel).lookupEntry
              = some (replaceFirst r p entry))))
      ∧ (s = [] →
          VisitRedeclarable prev (some entry) r (chain.headD 0) true fuel
            = ⟨prev, some entry⟩) := by
  intro s hs
  have hne : chain ≠ [] := by
    intro hc
    rw [hc] at hr
    cases hr
  have hhead : chain.head? = some (chain.headD 0) := by
    cases chain with
    | nil => exact absurd rfl hne
    | cons a tl => rfl
  have hcollect : collectPrevDecls prev r chain.head? fuel = s := by
    rw [collect_eq_filter prev r chain fuel hfollow hfuel, hs]
  have hcollect2 : collectPrevDecls prev r (some (chain.headD 0)) fuel = s := by
    rw [← hhead]
    exact hcollect
  have hlen : s.length + 1 = chain.length := by
    rw [hs]
    exact length_filter_ne_of_nodup chain r hnodup hr
  have hsnd : s.Nodup := by
    rw [hs]
    exact List.Nodup.filter _ hnodup
  refine ⟨hcollect, hlen, ?_, ?_, ?_⟩
  · rw [VisitRedeclarable, hcollect2]
    cases hcase : s with
    | nil => trivial
    | cons p ps =>
        show followsChain (relinkChain prev (p :: ps)) (p :: ps)
        exact relinkChain_follows prev (p :: ps) (hcase ▸ hsnd)
  · intro p ps hps
    rw [VisitRedeclarable, hcollect2, hps]
    constructor
    · intro hpe
      show some (retargetLoop entry r p entry) = some entry
      rw [retargetLoop_of_mem entry r p hpe]
    · intro hpe
      show some (retargetLoop entry r p entry) = some (replaceFirst r p entry)
      rw [retargetLoop_of_not_mem entry r p hpe]
  · intro hsnil
    rw [VisitRedeclarable, hcollect2, hsnil]

/-- Witness for C4: the chain `[3, 2, 1]` (newest first) with node 2 removed and
the lookup binding `[3]`; the survivors `[3, 1]` are re-linked with 3 pointing
at 1 and 1 pointing at none. -/
theorem visitRedeclarable_spec_witness :
    collectPrevDecls prevEx 2 [3, 2, 1].head? 3 = [3, 1]
    ∧ followsChain (VisitRedeclarable prevEx (some [3]) 2 ([3, 2, 1].headD 0) true 3).prev
        [3, 1] :=
  have h := visitRedeclarable_spec prevEx [3] [3, 2, 1] 2 3
    (by simp [followsChain, prevEx]) (by decide) (by decide) (by decide)
    [3, 1] (by decide)
  ⟨h.1, h.2.2.1⟩

theorem glueStep_fst_mono (m : Module) :
    ∀ (l : List Use) (acc : List Event × List String) (e : Event),
      e ∈ acc.1 → e ∈ (l.foldl (glueStep m) acc).1 := by
  intro l
  induction l with
  | nil => intro acc e he; exact he
  | cons v vs ih =>
      intro acc e he
      rw [List.foldl_cons]
      apply ih
      rw [glueStep]
      by_cases hg : glueUse v = true
      · rw [if_pos hg]
        exact List.mem_append_left _ he
      · rw [if_neg hg]
        exact he

theorem glue_events_mem (m : Module) :
    ∀ (l : List Use) (acc : List Event × List String) (u : Use),
      u ∈ l → glueUse u = true →
      ∀ e ∈ (RemoveStaticInit m u.parentFn).1, e ∈ (l.foldl (glueStep m) acc).1 := by
  intro l
  induction l with
  | nil => intro acc u hu; cases hu
  | cons v vs ih =>
      intro acc u hu hg e he
      rcases List.mem_cons.mp hu with hv | hv
      · subst hv
        rw [List.foldl_cons]
        apply glueStep_fst_mono
        rw [glueStep, if_pos hg]
        exact List.mem_append_right _ he
      · rw [List.foldl_cons]
        exact ih (glueStep m acc v) u hv hg e he

theorem glue_no_assertFail (m : Module) :
    ∀ (l : List Use),
      (∀ x ∈ l, glueUse x = true → Event.assertFail ∉ (RemoveStaticInit m x.parentFn).1) →
      ∀ acc : List Event × List String, Event.assertFail ∉ acc.1 →
        Event.assertFail ∉ (l.foldl (glueStep m) acc).1 := by
  intro l
  induction l with
  | nil => intro _ acc hacc; exact hacc
  | cons v vs ih =>
      intro hwf acc hacc
      rw [List.foldl_cons]
      apply ih
      · intro x hx hxg
        exact hwf x (List.mem_cons_of_mem v hx) hxg
      · rw [glueStep]
        by_cases hg : glueUse v = true
        · rw [if_pos hg]
          intro hmem
          rcases List.mem_append.mp hmem with h1 | h1
          · exact hacc h1
          · exact hwf v (List.mem_cons_self v vs) hg h1
        · rw [if_neg hg]
          exact hacc

theorem removeStaticInitFound_shape (fname : String) (F : Global) :
    (removeStaticInitFound fname F).1 = [Event.assertFail]
    ∨ ∃ caller, (removeStaticInitFound fname F).1
        = [Event.eraseGV caller, Event.eraseGV fname] := by
  rw [removeStaticInitFound]
  by_cases hc : (nameStartsWith fname "__cxx_global_var_init" && F.internalLinkage) = true
  · rw [if_pos hc]
    cases hu : F.uses with
    | nil => exact Or.inl rfl
    | cons u tl =>
        cases tl with
        | nil =>
            by_cases hi : u.isInstruction = true
            · refine Or.inr ⟨u.parentFn, ?_⟩
              show (if u.isInstruction = true then
                      ([Event.eraseGV u.parentFn, Event.eraseGV fname], [u.parentFn, fname])
                    else ([Event.assertFail], ([] : List String))).1
                  = [Event.eraseGV u.parentFn, Event.eraseGV fname]
              rw [if_pos hi]
            · refine Or.inl ?_
              show (if u.isInstruction = true then
                      ([Event.eraseGV u.parentFn, Event.eraseGV fname], [u.parentFn, fname])
                    else ([Event.assertFail], ([] : List String))).1
                  = [Event.assertFail]
              rw [if_neg hi]
        | cons u2 tl2 => exact Or.inl rfl
  · rw [if_neg hc]
    exact Or.inl rfl

theorem removeStaticInit_of_no_assert (m : Module) (fname : String)
    (h : Event.assertFail ∉ (RemoveStaticInit m fname).1) :
    ∃ caller, (RemoveStaticInit m fname).1
        = [Event.eraseGV caller, Event.eraseGV fname] := by
  rw [RemoveStaticInit] at h ⊢
  cases hf : Module.find m fname with
  | none =>
      rw [hf] at h
      simp at h
  | some F =>
      rw [hf] at h
      show ∃ caller, (removeStaticInitFound fname F).1
        = [Event.eraseGV caller, Event.eraseGV fname]
      rcases removeStaticInitFound_shape fname F with hs | hs
      · rw [hs] at h
        simp at h
      · exact hs

theorem maybeRemove_eq (m : Module) (mangledName : String) (GV : Global)
    (hfind : Module.find m mangledName = some GV) :
    MaybeRemoveDeclFromModule (some m) TransactionState.kCommitted mangledName
      = (collectGlueRemovals m (GV.uses.filter (fun u => !u.isDeadConst))).1
        ++ [Event.unmap mangledName, Event.dropRefs mangledName]
        ++ (if ((GV.uses.filter (fun u => !u.isDeadConst)).filter
              (fun u => !(collectGlueRemovals m
                  (GV.uses.filter (fun x => !x.isDeadConst))).2.contains u.parentFn)).isEmpty
            then []
            else [if GV.isFunc then Event.replaceUsesDummy mangledName
                  else Event.replaceUsesUndef mangledName])
        ++ [Event.eraseGV mangledName] := by
  simp only [MaybeRemoveDeclFromModule, hfind]
  rw [if_pos trivial]

theorem unmap_before_last_erase (G IFP : List Event) (g : String)
    (hG : Event.eraseGV g ∉ G) (hI : Event.eraseGV g ∉ IFP) :
    ∃ pre, G ++ [Event.unmap g, Event.dropRefs g] ++ IFP ++ [Event.eraseGV g]
        = pre ++ [Event.eraseGV g]
      ∧ Event.unmap g ∈ pre ∧ Event.eraseGV g ∉ pre := by
  refine ⟨G ++ [Event.unmap g, Event.dropRefs g] ++ IFP, by simp, by simp, ?_⟩
  simp [List.mem_append, hG, hI]

/-- Amended C6: on the unlinker's removal path for the declaration's own named
artifact, the external (JIT) address mapping is removed strictly before the
artifact is deleted from the image — the deletion is the final event and an
unmap of the artifact precedes it, with no earlier deletion of the artifact.
(The static-init glue functions deleted by `RemoveStaticInit` on the same run
are removed without such an unmap; see the counterexample.) -/
theorem maybeRemove_unmap_before_named_erase (m : Module) (mangledName : String)
    (GV : Global)
    (hfind : Module.find m mangledName = some GV)
    (hglue : Event.eraseGV mangledName
        ∉ (collectGlueRemovals m (GV.uses.filter (fun u => !u.isDeadConst))).1) :
    ∃ pre, MaybeRemoveDeclFromModule (some m) TransactionState.kCommitted mangledName
        = pre ++ [Event.eraseGV mangledName]
      ∧ Event.unmap mangledName ∈ pre
      ∧ Event.eraseGV mangledName ∉ pre := by
  rw [maybeRemove_eq m mangledName GV hfind]
  apply unmap_before_last_erase _ _ _ hglue
  split
  · simp
  · split <;> simp

/-- Witness for the amended C6: the artifact `w` of `exModule2` is deleted last,
after its unmap. -/
theorem maybeRemove_unmap_before_named_erase_witness :
    ∃ pre, MaybeRemoveDeclFromModule (some exModule2) TransactionState.kCommitted "w"
        = pre ++ [Event.eraseGV "w"]
      ∧ Event.unmap "w" ∈ pre
      ∧ Event.eraseGV "w" ∉ pre :=
  maybeRemove_unmap_before_named_erase exModule2 "w" exGenuineGlobal (by decide) (by decide)

/-- Counterexample to C6 as stated: on the run that removes artifact `v` of
`exModule`, the static-init glue function `__cxx_global_var_init1` is deleted
from the image without any prior (indeed any) address-mapping removal for it,
so the unmap-before-delete ordering does not hold on every removal path. -/
theorem maybeRemove_glue_deleted_without_unmap :
    ¬ unmapPrecedesDelete
        (MaybeRemoveDeclFromModule (some exModule) TransactionState.kCommitted "v")
        "__cxx_global_var_init1" := by
  intro h
  have h2 := h 1 (by decide) (by decide)
  exact absurd h2 (by decide)

/-- Counterexample to C7's assertion clause: the artifact `w` of `exModule2` has
a genuine (non-synthetic) remaining use from `main`, yet the unlinker raises no
assertion on its removal run. -/
theorem maybeRemove_no_assert_on_genuine_use : ¬ AssertsOnGenuineUse := by
  intro h
  have hmem := h exModule2 "w" exGenuineGlobal (by decide)
    ⟨{ isInstruction := true, parentFn := "main", isDeadConst := false },
      by decide, by decide⟩
  exact absurd hmem (by decide)

/-- Amended C7: when the unlinker finds a still-used artifact it fully deletes
each compiler-synthesized static-initialization glue function that uses it (the
glue deletion events appear in the run); it performs no assertion about other,
non-synthetic uses (no assertion event occurs when the glue functions are
well-formed); instead, if any use survives the glue removal, the artifact's
remaining references are detached by a replace-uses event (a same-signature
dummy for functions, an undef value for data) before the artifact is deleted. -/
theorem maybeRemove_glue_deleted_and_uses_replaced (m : Module) (mangledName : String)
    (GV : Global) (u : Use)
    (hfind : Module.find m mangledName = some GV)
    (hwf : ∀ x ∈ GV.uses.filter (fun y => !y.isDeadConst), glueUse x = true →
        Event.assertFail ∉ (RemoveStaticInit m x.parentFn).1)
    (hu : u ∈ GV.uses.filter (fun y => !y.isDeadConst))
    (hg : glueUse u = true) :
    Event.eraseGV u.parentFn
        ∈ MaybeRemoveDeclFromModule (some m) TransactionState.kCommitted mangledName
    ∧ Event.assertFail
        ∉ MaybeRemoveDeclFromModule (some m) TransactionState.kCommitted mangledName
    ∧ (((GV.uses.filter (fun y => !y.isDeadConst)).filter
          (fun y => !(collectGlueRemovals m
              (GV.uses.filter (fun x => !x.isDeadConst))).2.contains y.parentFn)).isEmpty
            = false →
        (if GV.isFunc then Event.replaceUsesDummy mangledName
         else Event.replaceUsesUndef mangledName)
          ∈ MaybeRemoveDeclFromModule (some m) TransactionState.kCommitted mangledName) := by
  rw [maybeRemove_eq m mangledName GV hfind]
  refine ⟨?_, ?_, ?_⟩
  · have hno := hwf u hu hg
    rcases removeStaticInit_of_no_assert m u.parentFn hno with ⟨caller, hRSI⟩
    have hin : Event.eraseGV u.parentFn ∈ (RemoveStaticInit m u.parentFn).1 := by
      rw [hRSI]
      simp
    have hmem := glue_events_mem m (GV.uses.filter (fun y => !y.isDeadConst))
      (([] : List Event), ([] : List String)) u hu hg _ hin
    exact List.mem_append_left _ (List.mem_append_left _ (List.mem_append_left _ hmem))
  · have hga : Event.assertFail
        ∉ (collectGlueRemovals m (GV.uses.filter (fun x => !x.isDeadConst))).1 :=
      glue_no_assertFail m _ hwf (([] : List Event), ([] : List String)) (by simp)
    intro hmem
    rcases List.mem_append.mp hmem with h1 | h1
    · rcases List.mem_append.mp h1 with h2 | h2
      · rcases List.mem_append.mp h2 with h3 | h3
        · exact hga h3
        · simp at h3
      · revert h2
        split
        · simp
        · split <;> simp
    · simp at h1
  · intro hrem
    rw [if_neg (by rw [hrem]; simp)]
    simp

/-- Witness for the amended C7: on `exModule`, removing `v` deletes the glue
function `__cxx_global_var_init1` from the image. -/
theorem maybeRemove_glue_deleted_and_uses_replaced_witness :
    Event.eraseGV "__cxx_global_var_init1"
      ∈ MaybeRemoveDeclFromModule (some exModule) TransactionState.kCommitted "v" :=
  (maybeRemove_glue_deleted_and_uses_replaced exModule "v" exVarGlobal
    { isInstruction := true, parentFn := "__cxx_global_var_init1", isDeadConst := false }
    (by decide) (by decide) (by decide) (by decide)).1

theorem collectFiles_mem_iff (bufferFID : Nat) (fid : Option Nat) (files : List Nat)
    (g : Nat) :
    g ∈ CollectFilesToUncache bufferFID fid files
      ↔ (g ∈ files ∨ (fid = some g ∧ bufferFID ≤ g)) := by
  cases hf0 : fid with
  | none => simp [CollectFilesToUncache]
  | some f0 =>
      simp only [CollectFilesToUncache]
      by_cases hcond : bufferFID ≤ f0 ∧ ¬ f0 ∈ files
      · rw [if_pos hcond]
        simp only [List.mem_append, List.mem_singleton]
        constructor
        · rintro (hg | hg)
          · exact Or.inl hg
          · subst hg
            exact Or.inr ⟨rfl, hcond.1⟩
        · rintro (hg | ⟨heq, _⟩)
          · exact Or.inl hg
          · injection heq with heq2
            exact Or.inr heq2.symm
      · rw [if_neg hcond]
        constructor
        · intro hg
          exact Or.inl hg
        · rintro (hg | ⟨heq, hle⟩)
          · exact hg
          · injection heq with heq2
            rw [← heq2] at hle ⊢
            by_cases hmemf : f0 ∈ files
            · exact hmemf
            · exact absurd ⟨hle, hmemf⟩ hcond

theorem flushOne_ne (c : Nat → CacheInfo) (g f : Nat) (h : ¬ f = g) :
    flushOne c g f = c f := by
  rw [flushOne]
  split
  · simp [h]
  · rfl

theorem flushOne_preserves_entry (c : Nat → CacheInfo) (g f : Nat) :
    (flushOne c g f).contentsEntry = (c f).contentsEntry := by
  rw [flushOne]
  split
  · by_cases hfg : f = g
    · subst hfg
      simp
    · simp [hfg]
  · rfl

theorem flushOne_hit (c : Nat → CacheInfo) (g : Nat) (h : (c g).contentsEntry = true) :
    flushOne c g g = { contentsEntry := true, buffer := none, size := 0 } := by
  rw [flushOne, if_pos h]
  simp [h]

theorem flushFiles_not_mem :
    ∀ (files : List Nat) (c : Nat → CacheInfo) (f : Nat), f ∉ files →
      flushFilesToUncache c files f = c f := by
  intro files
  induction files with
  | nil => intro c f _; rfl
  | cons g rest ih =>
      intro c f hf
      have hf2 : ¬ f = g ∧ f ∉ rest := by
        simpa [List.mem_cons, not_or] using hf
      rw [flushFilesToUncache, List.foldl_cons]
      rw [show rest.foldl flushOne (flushOne c g) = flushFilesToUncache (flushOne c g) rest
            from rfl]
      rw [ih (flushOne c g) f hf2.2, flushOne_ne c g f hf2.1]

theorem flushFiles_reset :
    ∀ (files : List Nat) (c : Nat → CacheInfo) (f : Nat), f ∈ files →
      (c f).contentsEntry = true →
      flushFilesToUncache c files f = { contentsEntry := true, buffer := none, size := 0 } := by
  intro files
  induction files with
  | nil => intro c f hf; cases hf
  | cons g rest ih =>
      intro c f hf hentry
      rw [flushFilesToUncache, List.foldl_cons]
      rw [show rest.foldl flushOne (flushOne c g) = flushFilesToUncache (flushOne c g) rest
            from rfl]
      by_cases hfr : f ∈ rest
      · apply ih (flushOne c g) f hfr
        rw [flushOne_preserves_entry]
        exact hentry
      · have hfg : f = g := by
          rcases List.mem_cons.mp hf with h1 | h1
          · exact h1
          · exact absurd h1 hfr
        subst hfg
        rw [flushFiles_not_mem rest (flushOne c f) f hfr]
        exact flushOne_hit c f hentry

/-- C9: `CollectFilesToUncache` records a file exactly when its FileID is valid
and at or after the transaction's first-introduced buffer (files predating the
transaction are never recorded, already-recorded files stay); the flush happens
exactly once per reversion, as its very last step; and the flush resets the
cached buffer and the recorded size of every accumulated file that has a
content entry. -/
theorem uncache_accumulate_and_flush (bufferFID : Nat) (fid : Option Nat)
    (files : List Nat) (c : Nat → CacheInfo) (rd rm : Nat → Bool) (T : Transaction)
    (f : Nat) (hmem : f ∈ files) (hentry : (c f).contentsEntry = true) :
    (∀ g : Nat, g ∈ CollectFilesToUncache bufferFID fid files
        ↔ (g ∈ files ∨ (fid = some g ∧ bufferFID ≤ g)))
    ∧ ((RevertTransactionRun rd rm T).2.2.count REvent.flushCaches = 1
        ∧ (RevertTransactionRun rd rm T).2.2.getLast? = some REvent.flushCaches)
    ∧ flushFilesToUncache c files f
        = { contentsEntry := true, buffer := none, size := 0 } := by
  refine ⟨fun g => collectFiles_mem_iff bufferFID fid files g, ⟨?_, ?_⟩,
    flushFiles_reset files c f hmem hentry⟩
  · rw [revertRun_trace]
    have hA : ((processedDecls T).map REvent.revertDecl).count REvent.flushCaches = 0 :=
      List.count_eq_zero.mpr (by simp)
    have hB : ((Transaction.rmacros T).map REvent.revertMacroDirective).count
        REvent.flushCaches = 0 :=
      List.count_eq_zero.mpr (by simp)
    rw [List.count_append, List.count_append, hA, hB]
    rfl
  · rw [revertRun_trace]
    exact List.getLast?_concat _

/-- Witness for C9: flushing the accumulated file 4 resets its cached buffer
and size. -/
theorem uncache_accumulate_and_flush_witness :
    flushFilesToUncache (fun _ => { contentsEntry := true, buffer := some 9, size := 7 })
        [4] 4
      = { contentsEntry := true, buffer := none, size := 0 } :=
  (uncache_accumulate_and_flush 0 none [4]
    (fun _ => { contentsEntry := true, buffer := some 9, size := 7 })
    (fun _ => true) (fun _ => true)
    { m_DeclQueue := [], m_MacroDirectiveQueue := [],
      m_State := TransactionState.kCommitted, m_BufferFID := 0 }
    4 (by decide) rfl).2.2

/-- C8: erasing a macro record whose current definition is already undefined
returns failure and leaves the macro table unchanged; otherwise the
(identifier, definition) pair is removed from the table and the erasure returns
success, leaving every other identifier's definition untouched; erasing the
same macro record a second time therefore returns failure and changes the table
no further. -/
theorem visitMacroDirective_spec (bufferFID : Nat) (st : PPState)
    (MacroD : MacroDirectiveInfo) :
    (st.macros MacroD.m_II = none →
        (VisitMacroDirective bufferFID st MacroD).1 = false
        ∧ (VisitMacroDirective bufferFID st MacroD).2.macros = st.macros)
    ∧ (∀ mi, st.macros MacroD.m_II = some mi →
        (VisitMacroDirective bufferFID st MacroD).1 = true
        ∧ (VisitMacroDirective bufferFID st MacroD).2.macros MacroD.m_II = none
        ∧ ∀ j, ¬ j = MacroD.m_II →
            (VisitMacroDirective bufferFID st MacroD).2.macros j = st.macros j)
    ∧ ((VisitMacroDirective bufferFID
          (VisitMacroDirective bufferFID st MacroD).2 MacroD).1 = false
        ∧ (VisitMacroDirective bufferFID
            (VisitMacroDirective bufferFID st MacroD).2 MacroD).2.macros
          = (VisitMacroDirective bufferFID st MacroD).2.macros) := by
  cases hm : st.macros MacroD.m_II with
  | none => simp [VisitMacroDirective, hm]
  | some mi =>
      simp [VisitMacroDirective, hm]
      intro j h1 h2
      exact absurd h2 h1

/-- Witness for C8: erasing the defined macro 0 of `ppEx` succeeds, and erasing
the same record a second time returns failure. -/
theorem visitMacroDirective_spec_witness :
    (VisitMacroDirective 1 ppEx macroDEx).1 = true
    ∧ (VisitMacroDirective 1 (VisitMacroDirective 1 ppEx macroDEx).2 macroDEx).1 = false :=
  ⟨((visitMacroDirective_spec 1 ppEx macroDEx).2.1 42 rfl).1,
   (visitMacroDirective_spec 1 ppEx macroDEx).2.2.1⟩

/-- Counterexample to C10 as stated: a macro record whose definition is already
undefined and whose file (FileID 0) predates the transaction's first buffer
(FileID 1) is erased with failure, and its file is not recorded in the
files-to-uncache set. -/
theorem visitMacro_predating_file_not_recorded :
    (VisitMacroDirective 1 ppUndefEx { m_II := 0, m_FID := some 0 }).1 = false
    ∧ (VisitMacroDirective 1 ppUndefEx
        { m_II := 0, m_FID := some 0 }).2.filesToUncache = [] :=
  ⟨rfl, rfl⟩

/-- Amended C10: erasing a macro record whose definition is already undefined
returns failure yet still runs the file collection before the
undefined-definition check, so its source file is recorded in the
files-to-uncache set whenever the file is valid and at or after the
transaction's first-introduced buffer — the failing path is not free of side
effects. -/
theorem visitMacro_fail_still_collects (bufferFID : Nat) (st : PPState)
    (MacroD : MacroDirectiveInfo) (f : Nat)
    (hundef : st.macros MacroD.m_II = none)
    (hfid : MacroD.m_FID = some f) (hle : bufferFID ≤ f) :
    (VisitMacroDirective bufferFID st MacroD).1 = false
    ∧ f ∈ (VisitMacroDirective bufferFID st MacroD).2.filesToUncache := by
  have hcol : f ∈ CollectFilesToUncache bufferFID MacroD.m_FID st.filesToUncache := by
    rw [collectFiles_mem_iff]
    exact Or.inr ⟨by rw [hfid], hle⟩
  simp [VisitMacroDirective, hundef, hcol]

/-- Witness for the amended C10: the undefined macro record in file 5 (at or
after buffer 1) fails to erase but file 5 is recorded. -/
theorem visitMacro_fail_still_collects_witness :
    (VisitMacroDirective 1 ppUndefEx macroDEx).1 = false
    ∧ 5 ∈ (VisitMacroDirective 1 ppUndefEx macroDEx).2.filesToUncache :=
  visitMacro_fail_still_collects 1 ppUndefEx macroDEx 5 rfl rfl (by decide)

end ASTNodeEraser
